import Mathlib

/-!
Verification of the Grand-Convergence compute core against its specification.

The development shallowly embeds, over exact rational arithmetic:
  * the CUDA convergence/divergence kernel (`convergence_cuda.cu`,
    `convergence_kernel`), with its sequential accumulation order;
  * the Metal convergence/divergence kernel (`convergence_metal.metal`,
    `convergence_kernel`), with its per-row `rowSum - diag` accumulation;
  * the index sets those kernels use to address their fixed-size local
    arrays and the per-site matrices;
  * the Theil-Sen regression routine `calculateRegression`
    (`JDKLabUtility.c`), with IEEE-style infinities modelled explicitly
    and out-of-bounds buffer reads modelled by `Option`;
  * the result emitter's file operations (`outputDataInJS`,
    `generateHTML`) at the level of paths opened and renamed;
  * the per-pair site-specific triple emission loop of `outputDataInJS`.

Definitions come first, then the lemmas and theorems about them.
-/

set_option maxHeartbeats 1000000
set_option linter.unnecessarySeqFocus false

namespace GrandConv

/-! ## The CUDA convergence kernel (`convergence_cuda.cu`, `convergence_kernel`)

The per-work-item body of the kernel, for one `(pair, site)` tuple, given the
two `n × n` matrices `P1` (at node `u`) and `P2` (at node `v`) for that site.
Floating-point values are modelled by exact rationals; the sequential
accumulation order of the loops is kept via list folds. -/

namespace Cuda

/-- The inner `k` loop of the first `j` loop of the CUDA kernel: for each `k`,
`sumcK[k] += P2[j,k]` and `sumdforJ += P2[j,k]`. State is `(sumcK, sumdforJ)`. -/
def sumPassInner {n : ℕ} (P2 : Fin n → Fin n → ℚ) (j : Fin n)
    (st : (Fin n → ℚ) × ℚ) : (Fin n → ℚ) × ℚ :=
  (List.finRange n).foldl
    (fun st k => (Function.update st.1 k (st.1 k + P2 j k), st.2 + P2 j k)) st

/-- One iteration of the first `j` loop: run the inner `k` loop, then subtract
the diagonal `P2[j,j]` from `sumcK[j]` and from `sumdforJ`. -/
def sumPassRow {n : ℕ} (P2 : Fin n → Fin n → ℚ) (st : (Fin n → ℚ) × ℚ)
    (j : Fin n) : (Fin n → ℚ) × ℚ :=
  let st1 := sumPassInner P2 j st
  (Function.update st1.1 j (st1.1 j - P2 j j), st1.2 - P2 j j)

/-- The full first loop of the CUDA kernel: `sumcK` starts at zero, `sumdforJ`
starts at zero, and rows `j = 0, …, n-1` are processed in order. -/
def sumPass {n : ℕ} (P2 : Fin n → Fin n → ℚ) : (Fin n → ℚ) × ℚ :=
  (List.finRange n).foldl (sumPassRow P2) (fun _ => 0, 0)

/-- One iteration of the second `j` loop: accumulate
`probC += sumcK[k]·P1[j,k]` and `probD += sumdK[k]·P1[j,k]` over `k`, then
subtract the diagonal contributions. State is `(probC, probD)`. -/
def probPassRow {n : ℕ} (P1 : Fin n → Fin n → ℚ) (sumcK sumdK : Fin n → ℚ)
    (st : ℚ × ℚ) (j : Fin n) : ℚ × ℚ :=
  let st1 := (List.finRange n).foldl
    (fun st k => (st.1 + sumcK k * P1 j k, st.2 + sumdK k * P1 j k)) st
  (st1.1 - sumcK j * P1 j j, st1.2 - sumdK j * P1 j j)

/-- The CUDA kernel body for one `(pair, site)` work item, producing
`(probC, probD)`: first loop builds `sumcK` and `sumdforJ`, then
`sumdK[k] = sumdforJ - sumcK[k]`, then the second loop reduces against `P1`. -/
def convergence_kernel {n : ℕ} (P1 P2 : Fin n → Fin n → ℚ) : ℚ × ℚ :=
  let scd := sumPass P2
  let sumcK := scd.1
  let sumdK : Fin n → ℚ := fun k => scd.2 - sumcK k
  (List.finRange n).foldl (probPassRow P1 sumcK sumdK) (0, 0)

end Cuda

/-! ## Closed-form reduction from the specification (§4.3)

These definitions follow the specification's words; the kernels are proved
equal to them. -/

/-- Spec §4.3: `sumcK[k] = (Σ_j P2[j,k]) − P2[k,k]` (column sums ex-diagonal). -/
def sumcKSpec {n : ℕ} (P2 : Fin n → Fin n → ℚ) (k : Fin n) : ℚ :=
  (∑ j, P2 j k) - P2 k k

/-- Spec §4.3: `total = Σ_j Σ_k P2[j,k] − Σ_j P2[j,j]` (all off-diagonal entries). -/
def totalSpec {n : ℕ} (P2 : Fin n → Fin n → ℚ) : ℚ :=
  (∑ j, ∑ k, P2 j k) - ∑ j, P2 j j

/-- Spec §4.3: `sumdK[k] = total − sumcK[k]`. -/
def sumdKSpec {n : ℕ} (P2 : Fin n → Fin n → ℚ) (k : Fin n) : ℚ :=
  totalSpec P2 - sumcKSpec P2 k

/-- Spec §4.3: `probC = Σ_j Σ_k (sumcK[k] · P1[j,k]) − Σ_j (sumcK[j] · P1[j,j])`. -/
def probCSpec {n : ℕ} (P1 P2 : Fin n → Fin n → ℚ) : ℚ :=
  (∑ j, ∑ k, sumcKSpec P2 k * P1 j k) - ∑ j, sumcKSpec P2 j * P1 j j

/-- Spec §4.3: `probD = Σ_j Σ_k (sumdK[k] · P1[j,k]) − Σ_j (sumdK[j] · P1[j,j])`. -/
def probDSpec {n : ℕ} (P1 P2 : Fin n → Fin n → ℚ) : ℚ :=
  (∑ j, ∑ k, sumdKSpec P2 k * P1 j k) - ∑ j, sumdKSpec P2 j * P1 j j

/-! ## The Metal convergence kernel (`convergence_metal.metal`, `convergence_kernel`)

The per-site body of the Metal kernel at the matrix level. Its loops are
hard-coded to 20 iterations; its first loop accumulates a per-row `rowSum`
starting at zero and adds `rowSum - diag` to `sumdforJ` once per row, instead
of adding every entry and subtracting the diagonal afterwards as CUDA does. -/

namespace Metal

/-- One iteration of the Metal first loop: the inner `k` loop adds `P2[j,k]`
to `sumcK[k]` and to a fresh `rowSum`; afterwards `sumdforJ += rowSum − diag`
and `sumcK[j] −= diag`. State is `(sumcK, sumdforJ)`. -/
def sumPassRow (P2 : Fin 20 → Fin 20 → ℚ) (st : (Fin 20 → ℚ) × ℚ)
    (j : Fin 20) : (Fin 20 → ℚ) × ℚ :=
  let inner := (List.finRange 20).foldl
    (fun s k => (Function.update s.1 k (s.1 k + P2 j k), s.2 + P2 j k)) (st.1, 0)
  (Function.update inner.1 j (inner.1 j - P2 j j), st.2 + (inner.2 - P2 j j))

/-- The full Metal first loop: 20 rows processed in order. -/
def sumPass (P2 : Fin 20 → Fin 20 → ℚ) : (Fin 20 → ℚ) × ℚ :=
  (List.finRange 20).foldl (sumPassRow P2) (fun _ => 0, 0)

/-- One iteration of the Metal second loop (same shape as the CUDA one,
with the diagonal `P1[j,j]` read hoisted before the inner loop). -/
def probPassRow (P1 : Fin 20 → Fin 20 → ℚ) (sumcK sumdK : Fin 20 → ℚ)
    (st : ℚ × ℚ) (j : Fin 20) : ℚ × ℚ :=
  let st1 := (List.finRange 20).foldl
    (fun st k => (st.1 + sumcK k * P1 j k, st.2 + sumdK k * P1 j k)) st
  (st1.1 - sumcK j * P1 j j, st1.2 - sumdK j * P1 j j)

/-- The Metal kernel body for one site, producing `(probC, probD)`. -/
def convergence_kernel (P1 P2 : Fin 20 → Fin 20 → ℚ) : ℚ × ℚ :=
  let scd := sumPass P2
  let sumcK := scd.1
  let sumdK : Fin 20 → ℚ := fun k => scd.2 - sumcK k
  (List.finRange 20).foldl (probPassRow P1 sumcK sumdK) (0, 0)

end Metal

/-! ## Local-array and matrix access indices of the kernels

`convergence_cuda.cu` declares the per-thread accumulators as
`double sumcK[20]; double sumdK[20];` but runs every loop up to the runtime
state-space size `n`. The list below records, in program order, the indices at
which the kernel body accesses those 20-element local arrays, as a function of
`n`. `convergence_metal.metal` instead hard-codes 20 iterations in every loop
while addressing the current site matrix with stride `n`; the offset list
records the flat offsets (relative to the site matrix base) at which the Metal
kernel reads `P2` (the `P1` pattern is identical). -/

/-- Size of the CUDA (and Metal) local accumulator arrays: `double sumcK[20]`. -/
def localArraySize : ℕ := 20

/-- Indices at which the CUDA kernel body accesses `sumcK`/`sumdK`: the
fixed-count zero-initialisation, the first `j`-loop (each `k < n`, then `j`),
the `sumdK` loop (`k < n`), and the second `j`-loop (each `k < n`, then `j`). -/
def cudaLocalAccessIdx (n : ℕ) : List ℕ :=
  List.range 20
    ++ (List.range n).flatMap (fun j => List.range n ++ [j])
    ++ List.range n
    ++ (List.range n).flatMap (fun j => List.range n ++ [j])

/-- Flat offsets (relative to the current site's matrix base) at which the
Metal kernel reads the `P2` matrix: for each hard-coded `j < 20`, the diagonal
`j·n + j` and the row entries `j·n + k` for hard-coded `k < 20`. -/
def metalMatrixReadOffsets (n : ℕ) : List ℕ :=
  (List.range 20).flatMap
    (fun j => (j * n + j) :: (List.range 20).map (fun k => j * n + k))

/-- The uniform test matrix of spec §8 S2: every entry equals `1/n` with
`n = 20`. -/
def uniformMatrix : Fin 20 → Fin 20 → ℚ := fun _ _ => 1 / 20

/-- Modelled from the spec: the per-pair aggregation of §4.3,
`pConvergent[i] = Σ_s probC(i,s)`; the aggregation loop lives in the host
driver (`codeml.c`), which is not among the provided sources. -/
def pConvergentAgg (numSites : ℕ) (probC : ℕ → ℚ) : ℚ :=
  ((List.range numSites).map probC).sum

/-! ## IEEE-style values for the regression routine

`calculateRegression` works on C `double`s. Finite values are modelled by
exact rationals; the slope pipeline can produce `±∞` (division of a nonzero
difference by a zero difference), so infinities and NaN are carried
explicitly. Comparisons follow IEEE semantics (every comparison with NaN is
false). -/

inductive Dbl where
  | fin (q : ℚ)
  | pinf
  | ninf
  | nan
deriving DecidableEq, Repr

namespace Dbl

/-- IEEE `<`. -/
def clt : Dbl → Dbl → Bool
  | fin a, fin b => a < b
  | fin _, pinf => true
  | ninf, fin _ => true
  | ninf, pinf => true
  | _, _ => false

/-- IEEE `>=` (false whenever either side is NaN). -/
def cge : Dbl → Dbl → Bool
  | fin a, fin b => b ≤ a
  | pinf, fin _ => true
  | fin _, ninf => true
  | pinf, ninf => true
  | pinf, pinf => true
  | ninf, ninf => true
  | _, _ => false

/-- IEEE `==` (false whenever either side is NaN). -/
def ceq : Dbl → Dbl → Bool
  | fin a, fin b => a = b
  | pinf, pinf => true
  | ninf, ninf => true
  | _, _ => false

/-- IEEE addition on the modelled values. -/
def add : Dbl → Dbl → Dbl
  | fin a, fin b => fin (a + b)
  | fin _, pinf => pinf
  | pinf, fin _ => pinf
  | pinf, pinf => pinf
  | fin _, ninf => ninf
  | ninf, fin _ => ninf
  | ninf, ninf => ninf
  | _, _ => nan

/-- Multiplication by `0.5`, as in `0.5*(vector[i] + vector[i+1])`. -/
def half : Dbl → Dbl
  | fin a => fin (a / 2)
  | pinf => pinf
  | ninf => ninf
  | nan => nan

/-- The ascending comparator realised by `qsort` with `cmpfunc`:
`a` may precede `b` iff `b < a` is false. -/
def dle (a b : Dbl) : Bool := !clt b a

end Dbl

/-- The slope `ydelta/xdelta` as computed on IEEE doubles: a zero denominator
with a nonzero numerator yields a signed infinity (the differences are exact,
so a zero denominator is a true `+0.0`). -/
def slopeOf (xd yd : ℚ) : Dbl :=
  if xd = 0 then (if yd = 0 then Dbl.nan else if 0 < yd then Dbl.pinf else Dbl.ninf)
  else Dbl.fin (yd / xd)

/-- The slope-collection passes of `calculateRegression` (both passes select
the same elements; the second fills the buffer in this order): for every index
pair `i < j`, skip when both deltas are zero, compute the slope, skip when it
equals `-1` or `0`, otherwise collect it. `x` is `pDivergent`, `y` is
`pAllConvergent`. -/
def collectSlopes (x y : List ℚ) : List Dbl :=
  (List.range x.length).flatMap (fun i =>
    (List.range' (i + 1) (x.length - (i + 1))).filterMap (fun j =>
      let xd := x.getD i 0 - x.getD j 0
      let yd := y.getD i 0 - y.getD j 0
      if xd = 0 ∧ yd = 0 then none
      else
        let s := slopeOf xd yd
        if Dbl.ceq s (Dbl.fin (-1)) then none
        else if Dbl.ceq s (Dbl.fin 0) then none
        else some s))

/-- Insertion of one element into a sorted list under a Boolean comparator. -/
def insertLe {α : Type} (le : α → α → Bool) (a : α) : List α → List α
  | [] => [a]
  | b :: t => if le a b then a :: b :: t else b :: insertLe le a t

/-- Insertion sort under a Boolean comparator; models the `qsort` calls (a
sorted permutation of its input). -/
def sortLe {α : Type} (le : α → α → Bool) : List α → List α
  | [] => []
  | a :: t => insertLe le a (sortLe le t)

/-- Ascending comparator on rationals, as `cmpfunc` orders plain doubles. -/
def qle (a b : ℚ) : Bool := a ≤ b

/-- Sorting the slope vector ascending (`qsort(vector, counter, …, cmpfunc)`). -/
def dsort (v : List Dbl) : List Dbl := sortLe Dbl.dle v

/-- The slope vector is sorted ascending under the `cmpfunc` order. -/
def dSorted (v : List Dbl) : Prop :=
  List.Pairwise (fun a b => Dbl.dle a b = true) v

/-- Index of the first element with `vector[i] >= -1`, scanning upwards;
`none` when the scan runs off the end of the vector. -/
def firstGeIdx : List Dbl → Option ℕ
  | [] => none
  | s :: t =>
    if Dbl.cge s (Dbl.fin (-1)) then some 0 else (firstGeIdx t).map (· + 1)

/-- The cutoff scan of `calculateRegression`: `cutoff` starts at `0`; the
first index `i` with `vector[i] >= -1` sets `cutoff = i - 1` and breaks; if
the scan never breaks, `cutoff` keeps its initial value `0`. -/
def cutoffOf (v : List Dbl) : ℤ :=
  match firstGeIdx v with
  | some i => (i : ℤ) - 1
  | none => 0

/-- The specification's cutoff (§4.5): the index of the last slope strictly
less than `-1` (the index of the greatest element `< -1`), or `-1` if no such
element exists. -/
def specCutoff (v : List Dbl) : ℤ :=
  match ((List.range v.length).filter
      (fun i => Dbl.clt (v.getD i Dbl.nan) (Dbl.fin (-1)))).getLast? with
  | some i => (i : ℤ)
  | none => -1

/-- A C array read at a signed index, `none` when the index lies outside the
allocated buffer. -/
def iget {α : Type} (l : List α) (i : ℤ) : Option α :=
  if 0 ≤ i ∧ i < l.length then l.get? i.toNat else none

/-- The slope-median stage of `calculateRegression` (sort, cutoff scan, and
the indexing that produces `k`). A result of `none` means the routine read
outside its allocated slope buffer. -/
def medianK (v : List Dbl) : Option Dbl :=
  let sorted := dsort v
  let cutoff := cutoffOf sorted
  if v.length % 2 = 0 then
    match iget sorted ((v.length / 2 : ℤ) + cutoff),
        iget sorted ((v.length / 2 : ℤ) + cutoff + 1) with
    | some a, some b => some (Dbl.half (Dbl.add a b))
    | _, _ => none
  else
    match iget sorted (((v.length + 1) / 2 : ℤ) + cutoff) with
    | some a => some a
    | none => none

/-- The slope stage of `calculateRegression` (lines 155–198): collect the
surviving pairwise slopes, then take the cutoff-shifted median. `none` means
an out-of-bounds read of the slope buffer. -/
def calculateRegressionK (x y : List ℚ) : Option Dbl :=
  medianK (collectSlopes x y)

/-- The intercept stage of `calculateRegression` (lines 201–211), given the
computed slope `k`: `temp[i] = pAllConvergent[i] − k·pDivergent[i]`, sort, and
take `(temp[N/2] + temp[N/2−1])/2` when `N` is even, `temp[N/2]` when odd. -/
def interceptOf (k : ℚ) (x y : List ℚ) : ℚ :=
  let temp := sortLe qle (List.zipWith (fun yi xi => yi - k * xi) y x)
  let N := x.length
  if N % 2 = 0 then (temp.getD (N / 2) 0 + temp.getD (N / 2 - 1) 0) / 2
  else temp.getD (N / 2) 0

/-- The specification's median (§4.5): sort the vector; the middle element
when the length is odd, the average of the two middle elements when even. -/
def medianSpecQ (t : List ℚ) : ℚ :=
  let s := sortLe qle t
  if t.length % 2 = 1 then s.getD ((t.length - 1) / 2) 0
  else (s.getD (t.length / 2 - 1) 0 + s.getD (t.length / 2) 0) / 2

/-! ## File operations of the result emitter

`outputDataInJS` and `generateHTML` are modelled at the level of the paths
they open for reading or writing and any renames they perform. -/

inductive FileOp where
  | openRead (path : String)
  | openWrite (path : String)
  | rename (src dst : String)
deriving DecidableEq, Repr

/-- Whether a file operation is a rename. -/
def FileOp.isRenameOp : FileOp → Bool
  | FileOp.rename _ _ => true
  | _ => false

/-- File operations of one `generateHTML` call: open the template for
reading, then open `UI/User/<outName>` for writing (the final path,
directly). -/
def generateHTMLOps (templateFile outName : String) : List FileOp :=
  [FileOp.openRead templateFile, FileOp.openWrite ("UI/User/" ++ outName)]

/-- The prefix of the configured HTML file name before the first dot, as
computed by `strchr(com.htmlFileName, '.')`. -/
def baseOf (s : String) : String :=
  String.mk (s.data.takeWhile (fun c => c != '.'))

/-- File operations of `outputDataInJS` for a configured HTML file name: the
data JS file is opened for writing at its final path, then the five
`generateHTML` calls each write their final artifact directly. -/
def outputDataInJSOps (htmlFileName : String) : List FileOp :=
  FileOp.openWrite ("UI/User/" ++ baseOf htmlFileName ++ "Data.js")
    :: (generateHTMLOps "UI/Template.html" htmlFileName
      ++ generateHTMLOps "UI/sheet-template.html" ("sheet-" ++ htmlFileName)
      ++ generateHTMLOps "UI/siteSpecific-template.html"
          ("siteSpecific-" ++ htmlFileName)
      ++ generateHTMLOps "UI/rateVsDiversity-template.html"
          ("rateVsDiversity-" ++ htmlFileName)
      ++ generateHTMLOps "UI/rateVsProbConvergence-template.html"
          ("rateVsProbConvergence-" ++ htmlFileName))

/-- The claimed emission discipline for one artifact: some temporary path is
written and renamed onto the final path, and the final path itself is never
opened for writing. -/
def writesViaTempAndRename (ops : List FileOp) (finalPath : String) : Prop :=
  (∃ tmp, tmp ≠ finalPath ∧ FileOp.openWrite tmp ∈ ops
      ∧ FileOp.rename tmp finalPath ∈ ops)
    ∧ FileOp.openWrite finalPath ∉ ops

/-! ## Site-specific triple emission of `outputDataInJS`

For selected pair `ig`, the loop over sites `h < lst-1` appends
`[h, conv, div]` whenever `siteSpecificMap[ig·lst·2 + h·2] != 0` or
`…+1 != 0`, and the final site `h = lst-1` is appended under the same guard.
`m` is the flat `siteSpecificMap` buffer. -/

def siteSpecificBPTriples (m : ℕ → ℚ) (ig lst : ℕ) : List (ℕ × ℚ × ℚ) :=
  ((List.range (lst - 1)).filterMap (fun h =>
    if m (ig * lst * 2 + h * 2) ≠ 0 ∨ m (ig * lst * 2 + h * 2 + 1) ≠ 0 then
      some (h, m (ig * lst * 2 + h * 2), m (ig * lst * 2 + h * 2 + 1))
    else none))
  ++ (if m (ig * lst * 2 + (lst - 1) * 2) ≠ 0
        ∨ m (ig * lst * 2 + (lst - 1) * 2 + 1) ≠ 0 then
      [(lst - 1, m (ig * lst * 2 + (lst - 1) * 2),
        m (ig * lst * 2 + (lst - 1) * 2 + 1))]
    else [])

/-! ## Generic fold helpers -/

/-- Folding a pairwise additive step over a list accumulates the two sums. -/
lemma foldl_pair_add {α : Type} (f g : α → ℚ) (a b : ℚ) (l : List α) :
    l.foldl (fun st x => (st.1 + f x, st.2 + g x)) (a, b) =
      (a + (l.map f).sum, b + (l.map g).sum) := by
  induction l generalizing a b with
  | nil => simp
  | cons x t ih => simp [ih, add_assoc]

/-- Folding an update-at-index step over a duplicate-free list adds `f k` at
every visited index and accumulates the total into the scalar slot. -/
lemma foldl_update_add {n : ℕ} (f : Fin n → ℚ) (l : List (Fin n)) (hl : l.Nodup)
    (g : Fin n → ℚ) (a : ℚ) :
    l.foldl (fun st k => (Function.update st.1 k (st.1 k + f k), st.2 + f k)) (g, a) =
      (fun x => g x + if x ∈ l then f x else 0, a + (l.map f).sum) := by
  induction l generalizing g a with
  | nil => simp
  | cons k0 t ih =>
    have hk0 : k0 ∉ t := (List.nodup_cons.mp hl).1
    have ht : t.Nodup := (List.nodup_cons.mp hl).2
    simp only [List.foldl_cons, List.map_cons, List.sum_cons]
    rw [ih ht]
    refine Prod.ext ?_ ?_
    · funext x
      by_cases hx : x = k0
      · subst hx
        simp [Function.update_same, hk0]
      · simp [Function.update_noteq hx, List.mem_cons, hx]
    · simp [add_assoc]

/-! ## CUDA kernel equals the spec reduction -/

/-- One iteration of the CUDA first loop in closed form. -/
lemma sumPassRow_eq {n : ℕ} (P2 : Fin n → Fin n → ℚ) (g : Fin n → ℚ) (a : ℚ)
    (j : Fin n) :
    Cuda.sumPassRow P2 (g, a) j =
      (fun x => g x + P2 j x - if x = j then P2 x x else 0,
       a + ((List.finRange n).map (P2 j)).sum - P2 j j) := by
  unfold Cuda.sumPassRow Cuda.sumPassInner
  rw [foldl_update_add _ _ (List.nodup_finRange n)]
  refine Prod.ext ?_ rfl
  funext x
  by_cases hx : x = j
  · subst hx
    simp [Function.update_same, List.mem_finRange]
  · simp [Function.update_noteq hx, List.mem_finRange, hx]

/-- Invariant of the CUDA first loop over any duplicate-free row list. -/
lemma sumPass_foldl {n : ℕ} (P2 : Fin n → Fin n → ℚ) (l : List (Fin n))
    (hl : l.Nodup) (g : Fin n → ℚ) (a : ℚ) :
    l.foldl (Cuda.sumPassRow P2) (g, a) =
      (fun x => g x + (l.map fun j => P2 j x).sum - if x ∈ l then P2 x x else 0,
       a + (l.map fun j => ((List.finRange n).map (P2 j)).sum - P2 j j).sum) := by
  induction l generalizing g a with
  | nil => simp
  | cons j0 t ih =>
    obtain ⟨hj0, ht⟩ := List.nodup_cons.mp hl
    simp only [List.foldl_cons, List.map_cons, List.sum_cons]
    rw [sumPassRow_eq, ih ht]
    refine Prod.ext ?_ ?_
    · funext x
      by_cases hx : x = j0
      · subst hx
        simp only [if_pos rfl, List.mem_cons, true_or, if_pos, if_neg hj0]
        ring
      · simp only [hx, List.mem_cons, false_or, if_false]
        ring
    · simp only
      ring

/-- After the CUDA first loop, `sumcK[k]` is the column sum ex-diagonal. -/
lemma sumPass_fst {n : ℕ} (P2 : Fin n → Fin n → ℚ) (k : Fin n) :
    (Cuda.sumPass P2).1 k = sumcKSpec P2 k := by
  unfold Cuda.sumPass
  rw [sumPass_foldl _ _ (List.nodup_finRange n)]
  simp [sumcKSpec, List.mem_finRange, Fin.sum_univ_def]

/-- After the CUDA first loop, `sumdforJ` is the total off-diagonal sum. -/
lemma sumPass_snd {n : ℕ} (P2 : Fin n → Fin n → ℚ) :
    (Cuda.sumPass P2).2 = totalSpec P2 := by
  unfold Cuda.sumPass
  rw [sumPass_foldl _ _ (List.nodup_finRange n)]
  simp only [zero_add, totalSpec, ← Fin.sum_univ_def]
  rw [← Finset.sum_sub_distrib]

/-- One iteration of the CUDA second loop in closed form. -/
lemma probPassRow_eq {n : ℕ} (P1 : Fin n → Fin n → ℚ) (cK dK : Fin n → ℚ)
    (a b : ℚ) (j : Fin n) :
    Cuda.probPassRow P1 cK dK (a, b) j =
      (a + ((List.finRange n).map fun k => cK k * P1 j k).sum - cK j * P1 j j,
       b + ((List.finRange n).map fun k => dK k * P1 j k).sum - dK j * P1 j j) := by
  unfold Cuda.probPassRow
  rw [foldl_pair_add]

/-- Invariant of the CUDA second loop over any row list. -/
lemma probPass_foldl {n : ℕ} (P1 : Fin n → Fin n → ℚ) (cK dK : Fin n → ℚ)
    (l : List (Fin n)) (a b : ℚ) :
    l.foldl (Cuda.probPassRow P1 cK dK) (a, b) =
      (a + (l.map fun j =>
        ((List.finRange n).map fun k => cK k * P1 j k).sum - cK j * P1 j j).sum,
       b + (l.map fun j =>
        ((List.finRange n).map fun k => dK k * P1 j k).sum - dK j * P1 j j).sum) := by
  induction l generalizing a b with
  | nil => simp
  | cons j0 t ih =>
    simp only [List.foldl_cons, List.map_cons, List.sum_cons]
    rw [probPassRow_eq, ih]
    refine Prod.ext ?_ ?_ <;> · simp only; ring

/-- The CUDA kernel body computes exactly the §4.3 closed-form reduction. -/
lemma cuda_kernel_eq_spec {n : ℕ} (P1 P2 : Fin n → Fin n → ℚ) :
    Cuda.convergence_kernel P1 P2 = (probCSpec P1 P2, probDSpec P1 P2) := by
  unfold Cuda.convergence_kernel
  rw [probPass_foldl]
  simp only [sumPass_fst, sumPass_snd]
  refine Prod.ext ?_ ?_
  · simp only [zero_add, probCSpec, ← Fin.sum_univ_def]
    rw [← Finset.sum_sub_distrib]
  · simp only [zero_add, probDSpec, sumdKSpec, ← Fin.sum_univ_def]
    rw [← Finset.sum_sub_distrib]

/-! ## Metal kernel equals the CUDA kernel -/

/-- The Metal and CUDA accumulation orders for one row are algebraically
equal: adding every entry then subtracting the diagonal agrees with adding
`rowSum − diag`. -/
lemma metal_sumPassRow_eq_cuda (P2 : Fin 20 → Fin 20 → ℚ)
    (st : (Fin 20 → ℚ) × ℚ) (j : Fin 20) :
    Metal.sumPassRow P2 st j = Cuda.sumPassRow P2 st j := by
  obtain ⟨g, a⟩ := st
  unfold Metal.sumPassRow Cuda.sumPassRow Cuda.sumPassInner
  rw [foldl_update_add _ _ (List.nodup_finRange 20),
    foldl_update_add _ _ (List.nodup_finRange 20)]
  refine Prod.ext rfl ?_
  simp only
  ring

/-- The Metal second loop is the CUDA second loop. -/
lemma metal_probPassRow_eq_cuda (P1 : Fin 20 → Fin 20 → ℚ)
    (cK dK : Fin 20 → ℚ) (st : ℚ × ℚ) (j : Fin 20) :
    Metal.probPassRow P1 cK dK st j = Cuda.probPassRow P1 cK dK st j := rfl

/-- The Metal kernel body equals the CUDA kernel body in exact arithmetic. -/
lemma metal_kernel_eq_cuda (P1 P2 : Fin 20 → Fin 20 → ℚ) :
    Metal.convergence_kernel P1 P2 = Cuda.convergence_kernel P1 P2 := by
  unfold Metal.convergence_kernel Cuda.convergence_kernel
  have hsum : Metal.sumPass P2 = Cuda.sumPass P2 := by
    unfold Metal.sumPass Cuda.sumPass
    exact List.foldl_ext _ _ _ fun st j _ => metal_sumPassRow_eq_cuda P2 st j
  rw [hsum]
  rfl

/-! ## Off-diagonal rewriting and nonnegativity -/

/-- Subtracting the diagonal from a full double sum leaves the off-diagonal
entries. -/
lemma sub_diag_sum_eq {n : ℕ} (f : Fin n → Fin n → ℚ) :
    (∑ j, ∑ k, f j k) - ∑ j, f j j =
      ∑ j, ∑ k in Finset.univ.erase j, f j k := by
  rw [← Finset.sum_sub_distrib]
  refine Finset.sum_congr rfl fun j _ => ?_
  rw [← Finset.sum_erase_add Finset.univ _ (Finset.mem_univ j)]
  ring

/-- `sumcK[k]` is the sum of the off-diagonal entries of column `k`. -/
lemma sumcKSpec_eq_erase {n : ℕ} (P2 : Fin n → Fin n → ℚ) (k : Fin n) :
    sumcKSpec P2 k = ∑ j in Finset.univ.erase k, P2 j k := by
  rw [sumcKSpec, ← Finset.sum_erase_add Finset.univ _ (Finset.mem_univ k)]
  ring

/-- `total` is the sum of all off-diagonal entries. -/
lemma totalSpec_eq_erase {n : ℕ} (P2 : Fin n → Fin n → ℚ) :
    totalSpec P2 = ∑ j, ∑ k in Finset.univ.erase j, P2 j k :=
  sub_diag_sum_eq P2

/-- With nonnegative entries, every `sumcK[k]` is nonnegative. -/
lemma sumcKSpec_nonneg {n : ℕ} (P2 : Fin n → Fin n → ℚ)
    (h2 : ∀ j k, 0 ≤ P2 j k) (k : Fin n) : 0 ≤ sumcKSpec P2 k := by
  rw [sumcKSpec_eq_erase]
  exact Finset.sum_nonneg fun j _ => h2 j k

/-- With nonnegative entries, every `sumdK[k]` is nonnegative: the column sum
ex-diagonal never exceeds the total off-diagonal sum. -/
lemma sumdKSpec_nonneg {n : ℕ} (P2 : Fin n → Fin n → ℚ)
    (h2 : ∀ j k, 0 ≤ P2 j k) (k : Fin n) : 0 ≤ sumdKSpec P2 k := by
  rw [sumdKSpec, sub_nonneg, sumcKSpec_eq_erase, totalSpec_eq_erase]
  calc ∑ j in Finset.univ.erase k, P2 j k
      ≤ ∑ j in Finset.univ.erase k, ∑ x in Finset.univ.erase j, P2 j x := by
        refine Finset.sum_le_sum fun j hj => ?_
        have hkj : k ∈ Finset.univ.erase j := by
          rw [Finset.mem_erase]
          exact ⟨fun hkj => (Finset.mem_erase.mp hj).1 hkj.symm, Finset.mem_univ k⟩
        exact Finset.single_le_sum (fun x _ => h2 j x) hkj
    _ ≤ ∑ j, ∑ x in Finset.univ.erase j, P2 j x := by
        refine Finset.sum_le_sum_of_subset_of_nonneg (Finset.subset_univ _)
          fun j _ _ => Finset.sum_nonneg fun x _ => h2 j x

/-- `probC` in closed form is a sum of off-diagonal products. -/
lemma probCSpec_eq_erase {n : ℕ} (P1 P2 : Fin n → Fin n → ℚ) :
    probCSpec P1 P2 = ∑ j, ∑ k in Finset.univ.erase j, sumcKSpec P2 k * P1 j k :=
  sub_diag_sum_eq fun j k => sumcKSpec P2 k * P1 j k

/-- `probD` in closed form is a sum of off-diagonal products. -/
lemma probDSpec_eq_erase {n : ℕ} (P1 P2 : Fin n → Fin n → ℚ) :
    probDSpec P1 P2 = ∑ j, ∑ k in Finset.univ.erase j, sumdKSpec P2 k * P1 j k :=
  sub_diag_sum_eq fun j k => sumdKSpec P2 k * P1 j k

/-- With nonnegative inputs both spec outputs are nonnegative. -/
lemma probSpec_nonneg {n : ℕ} (P1 P2 : Fin n → Fin n → ℚ)
    (h1 : ∀ j k, 0 ≤ P1 j k) (h2 : ∀ j k, 0 ≤ P2 j k) :
    0 ≤ probCSpec P1 P2 ∧ 0 ≤ probDSpec P1 P2 := by
  constructor
  · rw [probCSpec_eq_erase]
    exact Finset.sum_nonneg fun j _ => Finset.sum_nonneg fun k _ =>
      mul_nonneg (sumcKSpec_nonneg P2 h2 k) (h1 j k)
  · rw [probDSpec_eq_erase]
    exact Finset.sum_nonneg fun j _ => Finset.sum_nonneg fun k _ =>
      mul_nonneg (sumdKSpec_nonneg P2 h2 k) (h1 j k)

/-! ## Kernel value on the uniform input of spec §8 S2 -/

/-- On the all-`1/20` matrices, the kernel produces
`probC = 361/20 = 18.05` and `probD = 6859/20 = 342.95`. -/
lemma uniform_kernel_value :
    Cuda.convergence_kernel uniformMatrix uniformMatrix = (361 / 20, 6859 / 20) := by
  rw [cuda_kernel_eq_spec]
  have hc : ∀ k : Fin 20, sumcKSpec uniformMatrix k = 19 / 20 := by
    intro k
    simp [sumcKSpec, uniformMatrix, Finset.sum_const, Finset.card_univ]
    norm_num
  have htot : totalSpec uniformMatrix = 19 := by
    simp [totalSpec, uniformMatrix, Finset.sum_const, Finset.card_univ]
    norm_num
  refine Prod.ext ?_ ?_
  · simp only [probCSpec, hc, uniformMatrix, Finset.sum_const, Finset.card_univ]
    norm_num
  · simp only [probDSpec, sumdKSpec, hc, htot, uniformMatrix,
      Finset.sum_const, Finset.card_univ]
    norm_num

/-! ## Order facts on the modelled double values -/

/-- The `cmpfunc` order is reflexive. -/
lemma dle_refl (x : Dbl) : Dbl.dle x x = true := by
  cases x <;> simp [Dbl.dle, Dbl.clt]

/-- On non-NaN values, `s >= -1` is the negation of `s < -1`. -/
lemma cge_eq_bnot_clt (s : Dbl) (h : s ≠ Dbl.nan) :
    Dbl.cge s (Dbl.fin (-1)) = !Dbl.clt s (Dbl.fin (-1)) := by
  cases s with
  | fin a =>
    simp only [Dbl.cge, Dbl.clt, ← decide_not]
    exact decide_eq_decide.mpr not_lt.symm
  | pinf => rfl
  | ninf => rfl
  | nan => exact absurd rfl h

/-- `>= -1` propagates up the `cmpfunc` order (for non-NaN upper values). -/
lemma cge_mono (a b : Dbl) (hb : b ≠ Dbl.nan) (hab : Dbl.dle a b = true)
    (hqa : Dbl.cge a (Dbl.fin (-1)) = true) :
    Dbl.cge b (Dbl.fin (-1)) = true := by
  cases a <;> cases b <;>
    simp_all [Dbl.dle, Dbl.clt, Dbl.cge] <;> linarith

/-! ## takeWhile boundary facts -/

/-- Inside the `takeWhile` prefix the predicate holds. -/
lemma takeWhile_getD_of_lt {α : Type} (p : α → Bool) (l : List α) (d : α) :
    ∀ j, j < (l.takeWhile p).length → p (l.getD j d) = true := by
  induction l with
  | nil => intro j hj; simp at hj
  | cons a t ih =>
    intro j hj
    by_cases hpa : p a = true
    · rw [List.takeWhile_cons, if_pos hpa] at hj
      cases j with
      | zero => simpa using hpa
      | succ j2 =>
        rw [List.getD_cons_succ]
        exact ih j2 (Nat.lt_of_succ_lt_succ (by simpa using hj))
    · rw [List.takeWhile_cons, if_neg hpa] at hj
      simp at hj

/-- Just past the `takeWhile` prefix the predicate fails. -/
lemma takeWhile_boundary_getD {α : Type} (p : α → Bool) (l : List α) (d : α)
    (h : (l.takeWhile p).length < l.length) :
    p (l.getD (l.takeWhile p).length d) = false := by
  induction l with
  | nil => simp at h
  | cons a t ih =>
    by_cases hpa : p a = true
    · rw [List.takeWhile_cons, if_pos hpa] at h ⊢
      simp only [List.length_cons, List.getD_cons_succ]
      exact ih (by simpa using h)
    · rw [List.takeWhile_cons, if_neg hpa]
      simp only [List.length_nil, List.getD_cons_zero]
      cases hb : p a with
      | false => rfl
      | true => exact absurd hb hpa

/-! ## firstGeIdx characterisations -/

/-- If the predicate never holds, the scan runs off the end. -/
lemma firstGeIdx_none (v : List Dbl)
    (h : ∀ j, j < v.length → Dbl.cge (v.getD j Dbl.nan) (Dbl.fin (-1)) = false) :
    firstGeIdx v = none := by
  induction v with
  | nil => rfl
  | cons s t ih =>
    have h0 := h 0 (by simp)
    rw [List.getD_cons_zero] at h0
    rw [firstGeIdx, if_neg (by simp [h0])]
    rw [ih fun j hj => by
      have := h (j + 1) (by simpa using Nat.succ_lt_succ hj)
      rwa [List.getD_cons_succ] at this]
    rfl

/-- If the predicate holds exactly from index `m` on, the scan stops at `m`. -/
lemma firstGeIdx_boundary (v : List Dbl) (m : ℕ) (hm : m < v.length)
    (h : ∀ j, j < v.length →
      (Dbl.cge (v.getD j Dbl.nan) (Dbl.fin (-1)) = true ↔ m ≤ j)) :
    firstGeIdx v = some m := by
  induction v generalizing m with
  | nil => simp at hm
  | cons s t ih =>
    cases m with
    | zero =>
      have h0 : Dbl.cge s (Dbl.fin (-1)) = true := by
        have := (h 0 (by simp)).mpr (le_refl 0)
        rwa [List.getD_cons_zero] at this
      rw [firstGeIdx, if_pos h0]
    | succ m2 =>
      have h0 : ¬ Dbl.cge s (Dbl.fin (-1)) = true := by
        intro hb
        have := (h 0 (by simp)).mp (by rwa [List.getD_cons_zero])
        omega
      rw [firstGeIdx, if_neg h0]
      have ht : firstGeIdx t = some m2 := by
        refine ih m2 (by simpa using Nat.lt_of_succ_lt_succ hm) fun j hj => ?_
        have := h (j + 1) (by simpa using Nat.succ_lt_succ hj)
        rw [List.getD_cons_succ] at this
        rw [this]
        omega
      rw [ht]
      rfl

/-! ## Filtered index ranges -/

/-- Filtering `range n` by a predicate that holds exactly below `m` gives
`range m`. -/
lemma filter_range_eq (n m : ℕ) (q : ℕ → Bool) (hmn : m ≤ n)
    (hq : ∀ j, j < n → (q j = true ↔ j < m)) :
    (List.range n).filter q = List.range m := by
  induction n with
  | zero =>
    have : m = 0 := Nat.le_zero.mp hmn
    simp [this]
  | succ n2 ih =>
    by_cases hm : m = n2 + 1
    · subst hm
      exact List.filter_eq_self.mpr fun a ha =>
        (hq a (List.mem_range.mp ha)).mpr (List.mem_range.mp ha)
    · have hmn2 : m ≤ n2 := by omega
      have hlast : q n2 = false := by
        cases hb : q n2 with
        | false => rfl
        | true =>
          have := (hq n2 (by omega)).mp hb
          omega
      rw [List.range_succ, List.filter_append]
      rw [ih hmn2 fun j hj => hq j (by omega)]
      simp [hlast]

/-- The last element of `range m`. -/
lemma getLast?_range (m : ℕ) :
    (List.range m).getLast? = if m = 0 then none else some (m - 1) := by
  cases m with
  | zero => rfl
  | succ m2 => rw [List.range_succ, List.getLast?_concat]; simp

/-! ## Degenerate slope inputs -/

/-- On constant input vectors every index pair is skipped by the
`xdelta == 0 && ydelta == 0` guard, so no slope is collected. -/
lemma collectSlopes_const (c d : ℚ) (n : ℕ) :
    collectSlopes (List.replicate n c) (List.replicate n d) = [] := by
  unfold collectSlopes
  rw [List.flatMap_eq_nil_iff]
  intro i hi
  rw [List.filterMap_eq_nil_iff]
  intro j hj
  rw [List.length_replicate] at hi hj
  have hi2 : i < n := List.mem_range.mp hi
  have hj2 : j < n := by
    have := (List.mem_range'_1.mp hj).2
    omega
  have hgx : (List.replicate n c).getD i 0 = c := by
    rw [List.getD_eq_getElem _ _ (by rwa [List.length_replicate])]
    exact List.getElem_replicate c _
  have hgxj : (List.replicate n c).getD j 0 = c := by
    rw [List.getD_eq_getElem _ _ (by rwa [List.length_replicate])]
    exact List.getElem_replicate c _
  have hgy : (List.replicate n d).getD i 0 = d := by
    rw [List.getD_eq_getElem _ _ (by rwa [List.length_replicate])]
    exact List.getElem_replicate d _
  have hgyj : (List.replicate n d).getD j 0 = d := by
    rw [List.getD_eq_getElem _ _ (by rwa [List.length_replicate])]
    exact List.getElem_replicate d _
  simp only [hgx, hgxj, hgy, hgyj, sub_self]
  simp

/-- Indexing the median of an empty slope vector reads outside the buffer. -/
lemma medianK_nil : medianK [] = none := by decide

/-! ## Claims -/

/-- C1: For every (pair, site) work item with n = 20, given the two n×n
matrices `P1` and `P2` for that site, the GPU convergence kernels output
`probC` and `probD` exactly as the §4.3 closed-form reduction prescribes
(equality in exact arithmetic over the embedded functions). -/
theorem gpu_kernels_compute_spec_reduction (P1 P2 : Fin 20 → Fin 20 → ℚ) :
    Cuda.convergence_kernel P1 P2 = (probCSpec P1 P2, probDSpec P1 P2)
    ∧ Metal.convergence_kernel P1 P2 = (probCSpec P1 P2, probDSpec P1 P2) :=
  ⟨cuda_kernel_eq_spec P1 P2, by
    rw [metal_kernel_eq_cuda]
    exact cuda_kernel_eq_spec P1 P2⟩

/-- C2 (counterexample): on the uniform all-`1/20` input the kernel's
outputs are not the closed-form constants `361` and `6859` claimed by the
spec — they are smaller by a factor of `n = 20`. -/
theorem uniform_input_refutes_closed_form_constants :
    (Cuda.convergence_kernel uniformMatrix uniformMatrix).1 ≠ 361
    ∧ (Cuda.convergence_kernel uniformMatrix uniformMatrix).2 ≠ 6859 := by
  constructor <;> rw [uniform_kernel_value] <;> norm_num

/-- C2 (amended): on the uniform all-`1/20` input with `numSites = 1`, both
kernels output `probC = 361/20 = 18.05` and `probD = 6859/20 = 342.95`, and
the per-pair aggregation over the single site reproduces those values. -/
theorem uniform_input_kernel_outputs :
    Cuda.convergence_kernel uniformMatrix uniformMatrix = (361 / 20, 6859 / 20)
    ∧ Metal.convergence_kernel uniformMatrix uniformMatrix = (361 / 20, 6859 / 20)
    ∧ pConvergentAgg 1 (fun _ => 361 / 20) = 361 / 20
    ∧ pConvergentAgg 1 (fun _ => 6859 / 20) = 6859 / 20 := by
  refine ⟨uniform_kernel_value, ?_, ?_, ?_⟩
  · rw [metal_kernel_eq_cuda]
    exact uniform_kernel_value
  · simp [pConvergentAgg]
  · simp [pConvergentAgg]

/-- C3 (counterexample): nonnegative inputs do not bound the kernel outputs
by `1 + ε`: the uniform all-`1/20` matrices have nonnegative entries yet
yield `probC = 18.05 > 2 ≥ 1 + ε`. -/
theorem uniform_input_refutes_unit_upper_bound :
    ¬ ((∀ j k, 0 ≤ uniformMatrix j k) →
        (Cuda.convergence_kernel uniformMatrix uniformMatrix).1 ≤ 1 + 1) := by
  intro hcl
  have h := hcl fun j k => by norm_num [uniformMatrix]
  rw [uniform_kernel_value] at h
  norm_num at h

/-- C3 (amended): for every pair and site, if every entry of both input
matrices is nonnegative then the kernel's outputs satisfy `0 ≤ probC` and
`0 ≤ probD`; the claimed upper bound `1 + ε` does not hold. -/
theorem kernel_outputs_nonneg_of_nonneg_inputs {n : ℕ}
    (P1 P2 : Fin n → Fin n → ℚ)
    (h1 : ∀ j k, 0 ≤ P1 j k) (h2 : ∀ j k, 0 ≤ P2 j k) :
    0 ≤ (Cuda.convergence_kernel P1 P2).1
    ∧ 0 ≤ (Cuda.convergence_kernel P1 P2).2 := by
  rw [cuda_kernel_eq_spec]
  exact probSpec_nonneg P1 P2 h1 h2

/-- C3 (witness): the nonnegativity theorem applied at the uniform input. -/
theorem kernel_outputs_nonneg_witness :
    0 ≤ (Cuda.convergence_kernel uniformMatrix uniformMatrix).1
    ∧ 0 ≤ (Cuda.convergence_kernel uniformMatrix uniformMatrix).2 :=
  kernel_outputs_nonneg_of_nonneg_inputs uniformMatrix uniformMatrix
    (fun j k => by norm_num [uniformMatrix])
    (fun j k => by norm_num [uniformMatrix])

/-- C4: `calculateRegression` has no `NumericDegeneracy` path. When the
collected slope vector is empty — all input points identical, or `N = 1` so
no index pair exists — the `counter % 2 == 0` branch reads `vector[0]` and
`vector[1]` outside the zero-length slope buffer (result `none` in the
embedding) instead of surfacing a numeric-error exit. -/
theorem empty_slope_vector_out_of_bounds :
    collectSlopes [5, 5, 5] [7, 7, 7] = []
    ∧ calculateRegressionK [5, 5, 5] [7, 7, 7] = none
    ∧ collectSlopes [1] [2] = []
    ∧ calculateRegressionK [1] [2] = none := by
  have hc : collectSlopes [5, 5, 5] [7, 7, 7] = [] := collectSlopes_const 5 7 3
  refine ⟨hc, ?_, by decide, by decide⟩
  unfold calculateRegressionK
  rw [hc]
  exact medianK_nil

/-- C5 (counterexample): on the sorted slope vector `[-3, -2]`, in which
every slope is less than `-1`, the code's cutoff keeps its initial value `0`
while the specification's cutoff (index of the greatest slope `< -1`) is `1`. -/
theorem cutoff_differs_when_all_slopes_below_neg_one :
    dSorted [Dbl.fin (-3), Dbl.fin (-2)]
    ∧ Dbl.nan ∉ [Dbl.fin (-3), Dbl.fin (-2)]
    ∧ cutoffOf [Dbl.fin (-3), Dbl.fin (-2)] = 0
    ∧ specCutoff [Dbl.fin (-3), Dbl.fin (-2)] = 1
    ∧ cutoffOf [Dbl.fin (-3), Dbl.fin (-2)]
        ≠ specCutoff [Dbl.fin (-3), Dbl.fin (-2)] := by
  refine ⟨?_, by decide, by decide, by decide, by decide⟩
  unfold dSorted
  decide

/-- C5 (amended): for every non-empty sorted NaN-free collected slope
vector, the code's cutoff equals the specification's cutoff — the index of
the greatest slope strictly less than `-1`, or `-1` if none exists —
whenever at least one slope is `>= -1`; when every slope is less than `-1`
the scan never breaks and the cutoff keeps its initial value `0`. -/
theorem cutoff_matches_spec_or_keeps_initial_zero (v : List Dbl)
    (_hne : v ≠ []) (hs : dSorted v) (hnan : Dbl.nan ∉ v) :
    cutoffOf v =
      if ∀ s ∈ v, Dbl.clt s (Dbl.fin (-1)) = true then 0 else specCutoff v := by
  have hget_nn : ∀ j, j < v.length → v.getD j Dbl.nan ≠ Dbl.nan := by
    intro j hj habs
    apply hnan
    rw [← habs, List.getD_eq_getElem _ _ hj]
    exact List.getElem_mem hj
  have hmle : (v.takeWhile fun s => Dbl.clt s (Dbl.fin (-1))).length ≤ v.length :=
    (List.takeWhile_prefix _).length_le
  set p : Dbl → Bool := fun s => Dbl.clt s (Dbl.fin (-1)) with hp
  set m := (v.takeWhile p).length with hm
  have key : ∀ j, j < v.length → (p (v.getD j Dbl.nan) = true ↔ j < m) := by
    intro j hj
    constructor
    · intro hpj
      by_contra hjm
      push_neg at hjm
      have hmlt : m < v.length := lt_of_le_of_lt hjm hj
      have hbm : (v.getD m Dbl.nan).clt (Dbl.fin (-1)) = false :=
        takeWhile_boundary_getD p v _ hmlt
      have hqm : Dbl.cge (v.getD m Dbl.nan) (Dbl.fin (-1)) = true := by
        rw [cge_eq_bnot_clt _ (hget_nn m hmlt), hbm]
        rfl
      have hdle : Dbl.dle (v.getD m Dbl.nan) (v.getD j Dbl.nan) = true := by
        rcases eq_or_lt_of_le hjm with he | hlt
        · rw [he]
          exact dle_refl _
        · have hpw := List.pairwise_iff_getElem.mp hs m j hmlt hj hlt
          rwa [List.getD_eq_getElem _ _ hmlt, List.getD_eq_getElem _ _ hj]
      have hqj := cge_mono _ _ (hget_nn j hj) hdle hqm
      have hpj2 : (v.getD j Dbl.nan).clt (Dbl.fin (-1)) = true := hpj
      rw [cge_eq_bnot_clt _ (hget_nn j hj), hpj2] at hqj
      simp at hqj
    · intro hjm
      exact takeWhile_getD_of_lt p v Dbl.nan j hjm
  by_cases hall : ∀ s ∈ v, p s = true
  · rw [if_pos hall]
    unfold cutoffOf
    rw [firstGeIdx_none v ?_]
    intro j hj
    have hpj : (v.getD j Dbl.nan).clt (Dbl.fin (-1)) = true := by
      apply hall
      rw [List.getD_eq_getElem _ _ hj]
      exact List.getElem_mem hj
    rw [cge_eq_bnot_clt _ (hget_nn j hj), hpj]
    rfl
  · rw [if_neg hall]
    push_neg at hall
    obtain ⟨s, hsv, hps⟩ := hall
    obtain ⟨jw, hjw, hjs⟩ := List.getElem_of_mem hsv
    have hpjw : p (v.getD jw Dbl.nan) = false := by
      rw [List.getD_eq_getElem _ _ hjw, hjs]
      cases hb : p s with
      | false => rfl
      | true => exact absurd hb hps
    have hm_lt : m < v.length := by
      by_contra hge
      push_neg at hge
      have hlt : jw < m := lt_of_lt_of_le hjw hge
      rw [(key jw hjw).mpr hlt] at hpjw
      simp at hpjw
    have hcut : cutoffOf v = (m : ℤ) - 1 := by
      unfold cutoffOf
      rw [firstGeIdx_boundary v m hm_lt ?_]
      intro j hj
      rw [cge_eq_bnot_clt _ (hget_nn j hj)]
      constructor
      · intro hb
        by_contra hlt
        push_neg at hlt
        have hb2 : (v.getD j Dbl.nan).clt (Dbl.fin (-1)) = true := (key j hj).mpr hlt
        rw [hb2] at hb
        simp at hb
      · intro hmj
        have hnotlt : ¬ j < m := by omega
        have hfalse : (v.getD j Dbl.nan).clt (Dbl.fin (-1)) = false := by
          cases hb : p (v.getD j Dbl.nan) with
          | false => exact hb
          | true => exact absurd ((key j hj).mp hb) hnotlt
        rw [hfalse]
        rfl
    have hspec : specCutoff v = (m : ℤ) - 1 := by
      unfold specCutoff
      rw [filter_range_eq v.length m _ hmle fun j hj => key j hj]
      rw [getLast?_range]
      by_cases hm0 : m = 0
      · rw [if_pos hm0, hm0]
        rfl
      · rw [if_neg hm0]
        have h1m : 1 ≤ m := Nat.one_le_iff_ne_zero.mpr hm0
        push_cast [Nat.cast_sub h1m]
        rfl
    rw [hcut, hspec]

/-- C5 (witness): the cutoff theorem applied to the singleton vector `[0]`,
whose first slope is `>= -1`, yields the spec cutoff `-1`. -/
theorem cutoff_matches_spec_witness : cutoffOf [Dbl.fin 0] = -1 := by
  have h := cutoff_matches_spec_or_keeps_initial_zero [Dbl.fin 0]
    (by decide) (by unfold dSorted; decide) (by decide)
  rw [if_neg (by decide)] at h
  rw [h]
  decide

/-- C6: the kernels are not safe for the required sizes n ∈ {4, 20, 61}.
The CUDA kernel's loops run to `n` but its local accumulators hold 20
entries, so at `n = 61` it accesses index `20 ≥ 20` (and beyond); at
`n ∈ {4, 20}` all its local accesses are in bounds. The Metal kernel
hard-codes 20×20 loops with stride `n`, so at `n = 4` it reads offset
`≥ n² = 16` outside the current site's matrix. -/
theorem kernel_access_violations_for_generic_n :
    (∃ i ∈ cudaLocalAccessIdx 61, localArraySize ≤ i)
    ∧ (∀ i ∈ cudaLocalAccessIdx 20, i < localArraySize)
    ∧ (∀ i ∈ cudaLocalAccessIdx 4, i < localArraySize)
    ∧ (∃ o ∈ metalMatrixReadOffsets 4, 4 * 4 ≤ o) := by
  have hlt : ∀ n, n ≤ 20 → ∀ i ∈ cudaLocalAccessIdx n, i < localArraySize := by
    intro n hn i hi
    unfold cudaLocalAccessIdx at hi
    simp only [List.mem_append, List.mem_flatMap, List.mem_range,
      List.mem_singleton, List.mem_cons, List.not_mem_nil, or_false] at hi
    unfold localArraySize
    rcases hi with ((h1 | ⟨j, hj, h2 | h2⟩) | h3) | ⟨j, hj, h2 | h2⟩ <;> omega
  refine ⟨⟨20, ?_, ?_⟩, hlt 20 (le_refl _), hlt 4 ?_, ⟨95, ?_, ?_⟩⟩
  · unfold cudaLocalAccessIdx
    simp only [List.mem_append, List.mem_flatMap, List.mem_range, List.mem_singleton]
    exact Or.inl (Or.inl (Or.inr ⟨0, by omega, Or.inl (by omega)⟩))
  · exact le_refl _
  · omega
  · unfold metalMatrixReadOffsets
    refine List.mem_flatMap.mpr ⟨19, ?_, ?_⟩
    · decide
    · decide
  · omega

/-- C7: given the computed slope `k` and `N ≥ 1` points, the intercept stage
of `calculateRegression` returns the median of `t[i] = y[i] − k·x[i]`: the
middle element of the sorted vector when `N` is odd, the average of the two
middle elements when `N` is even. -/
theorem intercept_is_median_of_residuals (k : ℚ) (x y : List ℚ)
    (hlen : y.length = x.length) (hN : 1 ≤ x.length) :
    interceptOf k x y = medianSpecQ (List.zipWith (fun yi xi => yi - k * xi) y x) := by
  unfold interceptOf medianSpecQ
  have hzl : (List.zipWith (fun yi xi => yi - k * xi) y x).length = x.length := by
    rw [List.length_zipWith, hlen]
    exact min_self _
  rw [hzl]
  rcases Nat.even_or_odd x.length with he | ho
  · have h2 : x.length % 2 = 0 := Nat.even_iff.mp he
    rw [if_pos h2, if_neg (by omega)]
    ring
  · have h2 : x.length % 2 = 1 := Nat.odd_iff.mp ho
    rw [if_neg (by omega), if_pos h2]
    have hidx : (x.length - 1) / 2 = x.length / 2 := by omega
    rw [hidx]

/-- C7 (witness): the intercept theorem at `k = 1`, `x = [1,2]`, `y = [5,3]`. -/
theorem intercept_is_median_witness :
    interceptOf 1 [1, 2] [5, 3] =
      medianSpecQ (List.zipWith (fun yi xi => yi - 1 * xi) [5, 3] [1, 2]) :=
  intercept_is_median_of_residuals 1 [1, 2] [5, 3] (by decide) (by decide)

/-- C8: on identical inputs the CUDA accumulation (add every entry, subtract
the diagonal after each row) and the Metal accumulation (add `rowSum − diag`
per row) produce the same `(probC, probD)` in exact arithmetic, so the two
backends agree up to floating-point precision only. -/
theorem metal_cuda_agree_exact_arithmetic (P1 P2 : Fin 20 → Fin 20 → ℚ) :
    Metal.convergence_kernel P1 P2 = Cuda.convergence_kernel P1 P2 :=
  metal_kernel_eq_cuda P1 P2

/-- C9 (counterexample): the data JS file is opened for writing at its final
path and no rename is ever performed, so the emitter does not follow the
temporary-path-and-rename discipline. -/
theorem data_file_not_temp_renamed :
    ¬ writesViaTempAndRename (outputDataInJSOps "index.html")
        ("UI/User/indexData.js") := by
  intro hcl
  obtain ⟨⟨tmp, hne, hw, hr⟩, hnw⟩ := hcl
  apply hnw
  decide

/-- C9 (amended): for every configured HTML file name, the emitter opens the
data file's final path for writing directly, and none of its file operations
is a rename; a failure during emission therefore happens after the final
artifact has already been opened (and truncated) in place. -/
theorem emitter_writes_final_paths_directly (name : String) :
    FileOp.openWrite ("UI/User/" ++ baseOf name ++ "Data.js")
        ∈ outputDataInJSOps name
    ∧ ∀ op ∈ outputDataInJSOps name, ∀ s d, op ≠ FileOp.rename s d := by
  constructor
  · exact List.mem_cons_self _ _
  · intro op hop s d heq
    have hall : (outputDataInJSOps name).all (fun op => !FileOp.isRenameOp op) = true := rfl
    have h2 := List.all_eq_true.mp hall op hop
    rw [heq] at h2
    simp [FileOp.isRenameOp] at h2

/-- C10: for every selected pair `ig` and site `h` in `[0, lst)` with
`lst ≥ 1`, the emitted per-pair array contains the triple
`[h, conv, div]` if and only if `conv ≠ 0` or `div ≠ 0`; a site whose two
values are both exactly zero is omitted. -/
theorem site_triples_iff_nonzero (m : ℕ → ℚ) (ig lst h : ℕ) (cv dv : ℚ)
    (hlst : 1 ≤ lst) :
    (h, cv, dv) ∈ siteSpecificBPTriples m ig lst ↔
      (h < lst ∧ cv = m (ig * lst * 2 + h * 2) ∧ dv = m (ig * lst * 2 + h * 2 + 1)
        ∧ (cv ≠ 0 ∨ dv ≠ 0)) := by
  unfold siteSpecificBPTriples
  rw [List.mem_append]
  constructor
  · rintro (hmem | hmem)
    · rw [List.mem_filterMap] at hmem
      obtain ⟨h2, hh2, heq⟩ := hmem
      rw [List.mem_range] at hh2
      by_cases hc : m (ig * lst * 2 + h2 * 2) ≠ 0 ∨ m (ig * lst * 2 + h2 * 2 + 1) ≠ 0
      · rw [if_pos hc] at heq
        obtain ⟨rfl, rfl, rfl⟩ : h2 = h ∧ m (ig * lst * 2 + h2 * 2) = cv
            ∧ m (ig * lst * 2 + h2 * 2 + 1) = dv := by
          have := Option.some.inj heq
          exact ⟨congrArg Prod.fst this, congrArg (fun z => z.2.1) this,
            congrArg (fun z => z.2.2) this⟩
        exact ⟨by omega, rfl, rfl, hc⟩
      · rw [if_neg hc] at heq
        exact absurd heq (by simp)
    · by_cases hc : m (ig * lst * 2 + (lst - 1) * 2) ≠ 0
          ∨ m (ig * lst * 2 + (lst - 1) * 2 + 1) ≠ 0
      · rw [if_pos hc] at hmem
        rw [List.mem_singleton] at hmem
        obtain ⟨rfl, rfl, rfl⟩ : lst - 1 = h ∧ m (ig * lst * 2 + (lst - 1) * 2) = cv
            ∧ m (ig * lst * 2 + (lst - 1) * 2 + 1) = dv := by
          exact ⟨congrArg Prod.fst hmem.symm, congrArg (fun z => z.2.1) hmem.symm,
            congrArg (fun z => z.2.2) hmem.symm⟩
        exact ⟨by omega, rfl, rfl, hc⟩
      · rw [if_neg hc] at hmem
        simp at hmem
  · rintro ⟨hh, rfl, rfl, hnz⟩
    by_cases hht : h < lst - 1
    · left
      rw [List.mem_filterMap]
      exact ⟨h, List.mem_range.mpr hht, by rw [if_pos hnz]⟩
    · right
      have hhe : h = lst - 1 := by omega
      subst hhe
      rw [if_pos hnz]
      exact List.mem_singleton.mpr rfl

/-- C10 (witness): with `lst = 2` and a map whose site 0 has a nonzero
convergence value, the triple `(0, 1, 0)` is emitted. -/
theorem site_triples_witness :
    (0, (1 : ℚ), (0 : ℚ)) ∈
      siteSpecificBPTriples (fun i => if i = 0 then (1 : ℚ) else 0) 0 2 :=
  (site_triples_iff_nonzero (fun i => if i = 0 then (1 : ℚ) else 0) 0 2 0 1 0
    (by decide)).mpr ⟨by decide, by decide, by decide, Or.inl (by decide)⟩

end GrandConv
